import Mathlib

set_option maxRecDepth 8000

/-!
Verification of the surface-to-wall validator's geometric matcher, a shallow
embedding of `src/computations/surface_wall_matcher.py`.

Coordinates are modelled as exact rationals.  The two primitives supplied by
the external `trimesh` library are passed as parameters:

* `vn : Mesh → List Vec3` models the derived `mesh.vertex_normals` property
  (one normal per vertex, unit length); where a theorem needs those library
  invariants they appear as explicit hypotheses.
* `contains : Mesh → Vec3 → Bool` models `mesh.contains` (point-in-closed-solid
  classification).  Geometric facts about it that the spec asserts (a solid
  lies within its vertex bounding box; outward offsetting grows the solid)
  appear as explicit hypotheses on the theorems that need them.

`mesh.bounds` in trimesh is the axis-aligned bounding box of the vertices,
modelled by `meshBounds`.  Python's `dict` is modelled by an association list
with in-place overwrite (`dictInsert`), and the `ThreadPoolExecutor` fan-out of
`find_matching_partners` is modelled sequentially in submission order: each
task writes only the key `surface.id`, so for distinct ids the resulting
mapping is independent of completion order.
-/

/-- A 3D point/vector with exact rational coordinates (a row of a numpy
`(n, 3)` array in the source). -/
structure Vec3 where
  x : ℚ
  y : ℚ
  z : ℚ
deriving DecidableEq

/-- A triangle mesh: vertex positions plus triangular face indices
(`trimesh.Trimesh(vertices=..., faces=...)`). -/
structure Mesh where
  vertices : List Vec3
  faces : List (Nat × Nat × Nat)
deriving DecidableEq

/-- An architectural wall (`RevitWall` in `src/models/revit_model.py`): an id
and a triangle mesh; its `bounds` attribute is derived from the mesh. -/
structure Wall where
  id : String
  mesh : Mesh
deriving DecidableEq

/-- An analytical surface (`AnalyticalSurface` in `src/models/etabs.py`): an id
and an ordered list of 3D points; its `bounds` attribute is derived from the
points. -/
structure Surface where
  id : String
  points : List Vec3
deriving DecidableEq

/-- Minimum of a list of rationals, `np.min` (0 on the empty list, on which
numpy would raise; every use below is guarded by nonemptiness). -/
def listMin : List ℚ → ℚ
  | [] => 0
  | q :: qs => qs.foldl min q

/-- Maximum of a list of rationals, `np.max`. -/
def listMax : List ℚ → ℚ
  | [] => 0
  | q :: qs => qs.foldl max q

/-- An axis-aligned bounding box `[min, max]`, the 2x3 `bounds` array of the
source. -/
structure Bounds where
  lo : Vec3
  hi : Vec3
deriving DecidableEq

/-- Per-axis min/max of a point list: `np.array([np.min(points, axis=0),
np.max(points, axis=0)])`. -/
def boundsOf (pts : List Vec3) : Bounds :=
  ⟨⟨listMin (pts.map Vec3.x), listMin (pts.map Vec3.y), listMin (pts.map Vec3.z)⟩,
   ⟨listMax (pts.map Vec3.x), listMax (pts.map Vec3.y), listMax (pts.map Vec3.z)⟩⟩

/-- `surface.bounds` as computed in the `AnalyticalSurface` constructor. -/
def surfaceBounds (s : Surface) : Bounds := boundsOf s.points

/-- `mesh.bounds`: the axis-aligned bounding box of the mesh vertices. -/
def meshBounds (m : Mesh) : Bounds := boundsOf m.vertices

/-- `p` lies inside the closed box `b` on all three axes. -/
def withinBounds (p : Vec3) (b : Bounds) : Prop :=
  b.lo.x ≤ p.x ∧ p.x ≤ b.hi.x ∧ b.lo.y ≤ p.y ∧ p.y ≤ b.hi.y ∧
    b.lo.z ≤ p.z ∧ p.z ≤ b.hi.z

instance (p : Vec3) (b : Bounds) : Decidable (withinBounds p b) :=
  inferInstanceAs (Decidable (b.lo.x ≤ p.x ∧ p.x ≤ b.hi.x ∧ b.lo.y ≤ p.y ∧ p.y ≤ b.hi.y ∧
    b.lo.z ≤ p.z ∧ p.z ≤ b.hi.z))

/-- Move vertex `v` by `d` along the normal `n`:
`vertices + buffer_distance * vertex_normals`, one row at a time. -/
def displace (d : ℚ) (v n : Vec3) : Vec3 :=
  ⟨v.x + d * n.x, v.y + d * n.y, v.z + d * n.z⟩

/-- `MeshBufferer.create_buffered_mesh` (surface_wall_matcher.py lines 8-17):
displace every vertex along its normal by `buffer_distance`, keep the faces.
`vn` supplies trimesh's derived `vertex_normals` (same length as the vertex
list, an invariant of the library). -/
def createBufferedMesh (vn : Mesh → List Vec3) (m : Mesh) (d : ℚ) : Mesh :=
  ⟨List.zipWith (displace d) m.vertices (vn m), m.faces⟩

/-- `np.linspace(a, b, n)`: `n` evenly spaced samples from `a` to `b`
inclusive, the i-th being `a + i * (b - a) / (n - 1)`. -/
def linspace (a b : ℚ) (n : Nat) : List ℚ :=
  (List.range n).map fun i : Nat => a + (i : ℚ) * ((b - a) / ((n : ℚ) - 1))

/-- `InteriorPointGenerator.generate_interior_points` (lines 23-36): a regular
lattice of `numPoints ** 3` samples over the surface's bounding box.  The list
order mirrors `np.meshgrid(x, y, z)` with its default `indexing='xy'` followed
by C-order `ravel`: the y index varies slowest, then x, then z. -/
def generateInteriorPoints (s : Surface) (numPoints : Nat) : List Vec3 :=
  let lo := (boundsOf s.points).lo
  let hi := (boundsOf s.points).hi
  let xs := linspace lo.x hi.x numPoints
  let ys := linspace lo.y hi.y numPoints
  let zs := linspace lo.z hi.z numPoints
  ys.flatMap fun b => xs.flatMap fun a => zs.map fun c => ⟨a, b, c⟩

/-- `SurfaceWallMatcher.check_surface_wall_match` (lines 45-56): buffer the
wall mesh, require every boundary point of the surface to classify inside,
then require every generated interior sample (default resolution 5) to
classify inside. -/
def checkSurfaceWallMatch (contains : Mesh → Vec3 → Bool) (vn : Mesh → List Vec3)
    (d : ℚ) (s : Surface) (w : Wall) : Bool :=
  let bufferedMesh := createBufferedMesh vn w.mesh d
  let verticesInside := s.points.all fun p => contains bufferedMesh p
  if verticesInside then
    (generateInteriorPoints s 5).all fun p => contains bufferedMesh p
  else
    false

/-- The bounding-box pruning condition of `process_surface` (lines 68-69):
`np.all(surface_bounds[0] - d <= wall.bounds[1] + d)` and
`np.all(surface_bounds[1] + d >= wall.bounds[0] - d)`. -/
def prunePasses (d : ℚ) (sb wb : Bounds) : Prop :=
  (sb.lo.x - d ≤ wb.hi.x + d ∧ sb.lo.y - d ≤ wb.hi.y + d ∧ sb.lo.z - d ≤ wb.hi.z + d) ∧
    (sb.hi.x + d ≥ wb.lo.x - d ∧ sb.hi.y + d ≥ wb.lo.y - d ∧ sb.hi.z + d ≥ wb.lo.z - d)

instance (d : ℚ) (sb wb : Bounds) : Decidable (prunePasses d sb wb) :=
  inferInstanceAs (Decidable
    ((sb.lo.x - d ≤ wb.hi.x + d ∧ sb.lo.y - d ≤ wb.hi.y + d ∧ sb.lo.z - d ≤ wb.hi.z + d) ∧
      (sb.hi.x + d ≥ wb.lo.x - d ∧ sb.hi.y + d ≥ wb.lo.y - d ∧ sb.hi.z + d ≥ wb.lo.z - d)))

/-- The per-surface loop body `process_surface` (lines 63-76): walk the walls
in input order; on the first wall passing both the pruning test and the full
containment check, return its id and stop; if none does, return `"none"`. -/
def processSurface (contains : Mesh → Vec3 → Bool) (vn : Mesh → List Vec3)
    (d : ℚ) (s : Surface) : List Wall → String
  | [] => "none"
  | w :: ws =>
    if prunePasses d (surfaceBounds s) (meshBounds w.mesh) then
      if checkSurfaceWallMatch contains vn d s w then w.id
      else processSurface contains vn d s ws
    else processSurface contains vn d s ws

/-- The combined candidate predicate of the loop: pruning and full containment
both pass.  `processSurface` returns the id of the first wall satisfying it. -/
def wallCandidate (contains : Mesh → Vec3 → Bool) (vn : Mesh → List Vec3)
    (d : ℚ) (s : Surface) (w : Wall) : Bool :=
  decide (prunePasses d (surfaceBounds s) (meshBounds w.mesh)) &&
    checkSurfaceWallMatch contains vn d s w

/-- A Python `dict` assignment `m[k] = v` on an insertion-ordered association
list: overwrite in place if the key exists, else append. -/
def dictInsert : List (String × String) → String → String → List (String × String)
  | [], k, v => [(k, v)]
  | (k2, v2) :: rest, k, v =>
    if k2 = k then (k, v) :: rest else (k2, v2) :: dictInsert rest k v

/-- Python `dict` lookup on the association-list model. -/
def dictLookup : List (String × String) → String → Option String
  | [], _ => none
  | (k2, v2) :: rest, k => if k2 = k then some v2 else dictLookup rest k

/-- `SurfaceWallMatcher.find_matching_partners` (lines 58-83): every surface's
task writes `matches[surface.id]`, either a wall id or `"none"`.  The thread
fan-out is modelled sequentially in submission order (each task writes only
its own surface's key). -/
def findMatchingPartners (contains : Mesh → Vec3 → Bool) (vn : Mesh → List Vec3)
    (d : ℚ) (surfaces : List Surface) (walls : List Wall) : List (String × String) :=
  surfaces.foldl (fun m s => dictInsert m s.id (processSurface contains vn d s walls)) []

/-!
Exception-aware variant.  `trimesh` calls can raise on a degenerate mesh; a
classification primitive returning `none` models such an exception.  In the
source there is no `try/except`: the exception propagates out of
`process_surface`, and `concurrent.futures.wait` swallows it, so the surface's
task dies without writing any entry while other tasks run to completion.
-/

/-- Sequential short-circuit conjunction of fallible classifications:
`none` models a raised exception, which propagates. -/
def allContainsE (c : Mesh → Vec3 → Option Bool) (m : Mesh) : List Vec3 → Option Bool
  | [] => some true
  | p :: ps =>
    match c m p with
    | none => none
    | some false => some false
    | some true => allContainsE c m ps

/-- `check_surface_wall_match` with a fallible classification primitive. -/
def checkSurfaceWallMatchE (c : Mesh → Vec3 → Option Bool) (vn : Mesh → List Vec3)
    (d : ℚ) (s : Surface) (w : Wall) : Option Bool :=
  let bufferedMesh := createBufferedMesh vn w.mesh d
  match allContainsE c bufferedMesh s.points with
  | none => none
  | some false => some false
  | some true => allContainsE c bufferedMesh (generateInteriorPoints s 5)

/-- `process_surface` with a fallible classification primitive: an exception
(`none`) aborts the candidate loop for this surface. -/
def processSurfaceE (c : Mesh → Vec3 → Option Bool) (vn : Mesh → List Vec3)
    (d : ℚ) (s : Surface) : List Wall → Option String
  | [] => some "none"
  | w :: ws =>
    if prunePasses d (surfaceBounds s) (meshBounds w.mesh) then
      match checkSurfaceWallMatchE c vn d s w with
      | none => none
      | some true => some w.id
      | some false => processSurfaceE c vn d s ws
    else processSurfaceE c vn d s ws

/-- `find_matching_partners` with fallible classification: a surface whose
task raised contributes no entry (the exception is swallowed by
`concurrent.futures.wait`); the run still returns the mapping. -/
def findMatchingPartnersE (c : Mesh → Vec3 → Option Bool) (vn : Mesh → List Vec3)
    (d : ℚ) (surfaces : List Surface) (walls : List Wall) : List (String × String) :=
  surfaces.foldl (fun m s =>
    match processSurfaceE c vn d s walls with
    | some v => dictInsert m s.id v
    | none => m) []

/-! Concrete instances used by witnesses and counterexamples. -/

/-- A classification primitive accepting every point (used to instantiate
abstract-containment hypotheses in witnesses). -/
def containsAlways : Mesh → Vec3 → Bool := fun _ _ => true

/-- A classification primitive accepting exactly the points of the mesh's
vertex bounding box; it satisfies the solid-within-its-bounds property. -/
def containsBox : Mesh → Vec3 → Bool := fun m p => decide (withinBounds p (meshBounds m))

/-- A normals function assigning the unit normal `(0, 0, 1)` to every vertex
(length always matches the vertex count). -/
def vnZ : Mesh → List Vec3 := fun m => m.vertices.map fun _ => ⟨0, 0, 1⟩

/-- A one-triangle mesh at the origin. -/
def mesh1 : Mesh := ⟨[⟨0, 0, 0⟩], [(0, 0, 0)]⟩

/-- A wall with the mesh `mesh1`. -/
def wall1 : Wall := ⟨"W1", mesh1⟩

/-- A one-point surface at the origin. -/
def surf1 : Surface := ⟨"S1", [⟨0, 0, 0⟩]⟩

/-- A surface far from `wall1`. -/
def surf2 : Surface := ⟨"S2", [⟨10, 10, 10⟩]⟩

/-- A surface sharing `surf1`'s id but at a different position. -/
def surf1b : Surface := ⟨"S1", [⟨10, 10, 10⟩]⟩

/-- A degenerate, empty mesh ("zero faces"), whose classification raises. -/
def meshEmpty : Mesh := ⟨[], []⟩

/-- A wall whose mesh is degenerate. -/
def wallBad : Wall := ⟨"WB", meshEmpty⟩

/-- A fallible classification primitive that raises exactly on an empty mesh
and classifies every point of a nonempty mesh as inside. -/
def classifyE : Mesh → Vec3 → Option Bool :=
  fun m _ => if m.vertices = [] then none else some true

/-- A normals function assigning the unit normal `(1, 0, 0)` to every vertex. -/
def vnX : Mesh → List Vec3 := fun m => m.vertices.map fun _ => ⟨1, 0, 0⟩

/-- A two-point surface with a nondegenerate bounding box. -/
def surf3 : Surface := ⟨"S3", [⟨0, 0, 0⟩, ⟨1, 1, 1⟩]⟩

/-- The x-axis sample positions of the interior lattice:
`np.linspace(min_bound[0], max_bound[0], num_points)`. -/
def xLattice (s : Surface) (n : Nat) : List ℚ :=
  linspace (boundsOf s.points).lo.x (boundsOf s.points).hi.x n

/-- The y-axis sample positions of the interior lattice. -/
def yLattice (s : Surface) (n : Nat) : List ℚ :=
  linspace (boundsOf s.points).lo.y (boundsOf s.points).hi.y n

/-- The z-axis sample positions of the interior lattice. -/
def zLattice (s : Surface) (n : Nat) : List ℚ :=
  linspace (boundsOf s.points).lo.z (boundsOf s.points).hi.z n

/-! Helper lemmas about list minima and maxima. -/

theorem foldl_min_le_init (l : List ℚ) (acc : ℚ) : l.foldl min acc ≤ acc := by
  induction l generalizing acc with
  | nil => exact le_refl acc
  | cons q qs ih => exact le_trans (ih (min acc q)) (min_le_left acc q)

theorem foldl_min_le_mem {l : List ℚ} {x : ℚ} (acc : ℚ) (hx : x ∈ l) :
    l.foldl min acc ≤ x := by
  induction l generalizing acc with
  | nil => cases hx
  | cons q qs ih =>
    rcases List.mem_cons.mp hx with h | h
    · subst h
      exact le_trans (foldl_min_le_init qs (min acc x)) (min_le_right acc x)
    · exact ih (min acc q) h

theorem listMin_le_of_mem {l : List ℚ} {x : ℚ} (hx : x ∈ l) : listMin l ≤ x := by
  cases l with
  | nil => cases hx
  | cons q qs =>
    rcases List.mem_cons.mp hx with h | h
    · subst h
      exact foldl_min_le_init qs x
    · exact foldl_min_le_mem q h

theorem foldl_min_mem (l : List ℚ) (acc : ℚ) : l.foldl min acc ∈ acc :: l := by
  induction l generalizing acc with
  | nil => exact List.mem_singleton.mpr rfl
  | cons q qs ih =>
    have h := ih (min acc q)
    rcases List.mem_cons.mp h with h1 | h1
    · rw [List.foldl_cons, h1]
      rcases min_choice acc q with h2 | h2 <;> rw [h2]
      · exact List.mem_cons_self _ _
      · exact List.mem_cons_of_mem _ (List.mem_cons_self _ _)
    · exact List.mem_cons_of_mem _ (List.mem_cons_of_mem _ h1)

theorem listMin_mem {l : List ℚ} (h : l ≠ []) : listMin l ∈ l := by
  cases l with
  | nil => exact absurd rfl h
  | cons q qs => exact foldl_min_mem qs q

theorem le_listMin {l : List ℚ} {c : ℚ} (h : l ≠ []) (hall : ∀ x ∈ l, c ≤ x) :
    c ≤ listMin l :=
  hall _ (listMin_mem h)

theorem init_le_foldl_max (l : List ℚ) (acc : ℚ) : acc ≤ l.foldl max acc := by
  induction l generalizing acc with
  | nil => exact le_refl acc
  | cons q qs ih => exact le_trans (le_max_left acc q) (ih (max acc q))

theorem mem_le_foldl_max {l : List ℚ} {x : ℚ} (acc : ℚ) (hx : x ∈ l) :
    x ≤ l.foldl max acc := by
  induction l generalizing acc with
  | nil => cases hx
  | cons q qs ih =>
    rcases List.mem_cons.mp hx with h | h
    · subst h
      exact le_trans (le_max_right acc x) (init_le_foldl_max qs (max acc x))
    · exact ih (max acc q) h

theorem le_listMax_of_mem {l : List ℚ} {x : ℚ} (hx : x ∈ l) : x ≤ listMax l := by
  cases l with
  | nil => cases hx
  | cons q qs =>
    rcases List.mem_cons.mp hx with h | h
    · subst h
      exact init_le_foldl_max qs x
    · exact mem_le_foldl_max q h

theorem foldl_max_mem (l : List ℚ) (acc : ℚ) : l.foldl max acc ∈ acc :: l := by
  induction l generalizing acc with
  | nil => exact List.mem_singleton.mpr rfl
  | cons q qs ih =>
    have h := ih (max acc q)
    rcases List.mem_cons.mp h with h1 | h1
    · rw [List.foldl_cons, h1]
      rcases max_choice acc q with h2 | h2 <;> rw [h2]
      · exact List.mem_cons_self _ _
      · exact List.mem_cons_of_mem _ (List.mem_cons_self _ _)
    · exact List.mem_cons_of_mem _ (List.mem_cons_of_mem _ h1)

theorem listMax_mem {l : List ℚ} (h : l ≠ []) : listMax l ∈ l := by
  cases l with
  | nil => exact absurd rfl h
  | cons q qs => exact foldl_max_mem qs q

theorem listMax_le {l : List ℚ} {c : ℚ} (h : l ≠ []) (hall : ∀ x ∈ l, x ≤ c) :
    listMax l ≤ c :=
  hall _ (listMax_mem h)

theorem zipWith_mem {α β γ : Type} {f : α → β → γ} {as : List α} {bs : List β} {c : γ}
    (h : c ∈ List.zipWith f as bs) : ∃ a ∈ as, ∃ b ∈ bs, c = f a b := by
  induction as generalizing bs with
  | nil => cases h
  | cons a as2 ih =>
    cases bs with
    | nil => cases h
    | cons b bs2 =>
      rcases List.mem_cons.mp h with h1 | h1
      · exact ⟨a, List.mem_cons_self _ _, b, List.mem_cons_self _ _, h1⟩
      · rcases ih h1 with ⟨a2, ha, b2, hb, hc⟩
        exact ⟨a2, List.mem_cons_of_mem _ ha, b2, List.mem_cons_of_mem _ hb, hc⟩

/-! Helper lemmas about the association-list dictionary. -/

theorem dictLookup_insert_self (m : List (String × String)) (k v : String) :
    dictLookup (dictInsert m k v) k = some v := by
  induction m with
  | nil => simp [dictInsert, dictLookup]
  | cons kv rest ih =>
    obtain ⟨k2, v2⟩ := kv
    by_cases h : k2 = k
    · simp [dictInsert, h, dictLookup]
    · simp [dictInsert, h, dictLookup, ih]

theorem dictLookup_insert_ne (m : List (String × String)) {k k2 : String} (v : String)
    (h : k ≠ k2) : dictLookup (dictInsert m k2 v) k = dictLookup m k := by
  have h2 : ¬ k2 = k := fun he => h he.symm
  induction m with
  | nil => simp [dictInsert, dictLookup, h2]
  | cons kv rest ih =>
    obtain ⟨k3, v3⟩ := kv
    by_cases h1 : k3 = k2
    · subst h1
      simp [dictInsert, dictLookup, h2]
    · by_cases h3 : k3 = k <;> simp [dictInsert, h1, dictLookup, h3, ih, h, h2]

theorem dictInsert_fresh {m : List (String × String)} {k : String} (v : String)
    (h : k ∉ m.map Prod.fst) : dictInsert m k v = m ++ [(k, v)] := by
  induction m with
  | nil => rfl
  | cons kv rest ih =>
    obtain ⟨k2, v2⟩ := kv
    simp only [List.map_cons, List.mem_cons] at h
    push_neg at h
    have h2 : ¬ k2 = k := fun he => h.1 he.symm
    simp [dictInsert, h2, ih h.2]

theorem mem_dictInsert {kv : String × String} {m : List (String × String)} {k v : String}
    (h : kv ∈ dictInsert m k v) : kv = (k, v) ∨ kv ∈ m := by
  induction m with
  | nil => simpa [dictInsert] using h
  | cons kv2 rest ih =>
    obtain ⟨k2, v2⟩ := kv2
    by_cases h1 : k2 = k
    · simp only [dictInsert, if_pos h1, List.mem_cons] at h
      rcases h with h | h
      · exact Or.inl h
      · exact Or.inr (List.mem_cons_of_mem _ h)
    · simp only [dictInsert, if_neg h1, List.mem_cons] at h
      rcases h with h | h
      · exact Or.inr (List.mem_cons.mpr (Or.inl h))
      · rcases ih h with h2 | h2
        · exact Or.inl h2
        · exact Or.inr (List.mem_cons_of_mem _ h2)

theorem mem_keys_dictInsert {k2 : String} {m : List (String × String)} {k v : String} :
    k2 ∈ (dictInsert m k v).map Prod.fst ↔ k2 = k ∨ k2 ∈ m.map Prod.fst := by
  induction m with
  | nil => simp [dictInsert]
  | cons kv rest ih =>
    obtain ⟨k3, v3⟩ := kv
    by_cases h1 : k3 = k
    · subst h1
      have hins : dictInsert ((k3, v3) :: rest) k3 v = (k3, v) :: rest := by
        simp [dictInsert]
      rw [hins]
      simp only [List.map_cons, List.mem_cons]
      tauto
    · simp only [dictInsert, if_neg h1, List.map_cons, List.mem_cons, ih]
      tauto

theorem nodup_keys_dictInsert {m : List (String × String)} {k v : String}
    (h : (m.map Prod.fst).Nodup) : ((dictInsert m k v).map Prod.fst).Nodup := by
  induction m with
  | nil => simp [dictInsert]
  | cons kv rest ih =>
    obtain ⟨k2, v2⟩ := kv
    simp only [List.map_cons, List.nodup_cons] at h
    by_cases h1 : k2 = k
    · subst h1
      have hins : dictInsert ((k2, v2) :: rest) k2 v = (k2, v) :: rest := by
        simp [dictInsert]
      rw [hins]
      simp only [List.map_cons, List.nodup_cons]
      exact h
    · simp only [dictInsert, if_neg h1, List.map_cons, List.nodup_cons]
      refine ⟨fun hmem => ?_, ih h.2⟩
      rcases mem_keys_dictInsert.mp hmem with h2 | h2
      · exact h1 h2
      · exact h.1 h2

theorem length_dictInsert (m : List (String × String)) (k v : String) :
    (dictInsert m k v).length =
      if k ∈ m.map Prod.fst then m.length else m.length + 1 := by
  induction m with
  | nil => simp [dictInsert]
  | cons kv rest ih =>
    obtain ⟨k2, v2⟩ := kv
    by_cases h1 : k2 = k
    · subst h1
      simp [dictInsert]
    · have h2 : ¬ k = k2 := fun he => h1 he.symm
      simp only [dictInsert, if_neg h1, List.length_cons, ih, List.map_cons, List.mem_cons]
      by_cases h3 : k ∈ rest.map Prod.fst
      · simp [h3, h2]
      · simp [h3, h2]

/-! Structural lemmas about the matching loop. -/

theorem processSurface_eq_find (contains : Mesh → Vec3 → Bool) (vn : Mesh → List Vec3)
    (d : ℚ) (s : Surface) (walls : List Wall) :
    processSurface contains vn d s walls =
      match walls.find? (wallCandidate contains vn d s) with
      | some w => w.id
      | none => "none" := by
  induction walls with
  | nil => rfl
  | cons w ws ih =>
    by_cases hp : prunePasses d (surfaceBounds s) (meshBounds w.mesh)
    · by_cases hc : checkSurfaceWallMatch contains vn d s w = true
      · simp [processSurface, hp, hc, List.find?_cons, wallCandidate]
      · simp [processSurface, hp, hc, List.find?_cons, wallCandidate, ih]
    · simp [processSurface, hp, List.find?_cons, wallCandidate, ih]

theorem processSurface_value (contains : Mesh → Vec3 → Bool) (vn : Mesh → List Vec3)
    (d : ℚ) (s : Surface) (walls : List Wall) :
    processSurface contains vn d s walls = "none" ∨
      ∃ w ∈ walls, processSurface contains vn d s walls = w.id := by
  rw [processSurface_eq_find]
  cases hf : walls.find? (wallCandidate contains vn d s) with
  | none => exact Or.inl rfl
  | some w => exact Or.inr ⟨w, List.mem_of_find?_eq_some hf, rfl⟩

theorem lookup_fold_insert (f : Surface → String) (ss : List Surface) :
    ∀ (acc : List (String × String)) (k : String),
    dictLookup (ss.foldl (fun m s => dictInsert m s.id (f s)) acc) k =
      match ss.reverse.find? (fun s => decide (s.id = k)) with
      | some s => some (f s)
      | none => dictLookup acc k := by
  induction ss with
  | nil => intro acc k; rfl
  | cons s rest ih =>
    intro acc k
    rw [List.foldl_cons, ih, List.reverse_cons, List.find?_append]
    cases hf : rest.reverse.find? (fun s2 => decide (s2.id = k)) with
    | some s2 => simp [hf]
    | none =>
      simp only [hf, Option.none_orElse]
      by_cases hk : s.id = k
      · subst hk
        simp [List.find?, dictLookup_insert_self]
      · have hk2 : k ≠ s.id := fun he => hk he.symm
        simp [List.find?, hk, dictLookup_insert_ne _ _ hk2]

theorem fold_insert_eq_append (f : Surface → String) (ss : List Surface) :
    ∀ (acc : List (String × String)), (ss.map Surface.id).Nodup →
      (∀ s ∈ ss, s.id ∉ acc.map Prod.fst) →
      ss.foldl (fun m s => dictInsert m s.id (f s)) acc =
        acc ++ ss.map (fun s => (s.id, f s)) := by
  induction ss with
  | nil => intro acc _ _; simp
  | cons s rest ih =>
    intro acc hnd hfresh
    simp only [List.map_cons, List.nodup_cons] at hnd
    have hfresh2 : ∀ s2 ∈ rest, s2.id ∉ (acc ++ [(s.id, f s)]).map Prod.fst := by
      intro s2 hs2
      simp only [List.map_append, List.mem_append, List.map_cons, List.map_nil,
        List.mem_singleton]
      push_neg
      refine ⟨hfresh s2 (List.mem_cons_of_mem _ hs2), fun he => ?_⟩
      have hmem : s2.id ∈ rest.map Surface.id := List.mem_map_of_mem Surface.id hs2
      rw [he] at hmem
      exact hnd.1 hmem
    rw [List.foldl_cons, dictInsert_fresh (f s) (hfresh s (List.mem_cons_self _ _)),
      ih (acc ++ [(s.id, f s)]) hnd.2 hfresh2]
    simp

theorem mem_fold_insert (f : Surface → String) (ss : List Surface) :
    ∀ (acc : List (String × String)), ∀ kv ∈ ss.foldl (fun m s => dictInsert m s.id (f s)) acc,
      kv ∈ acc ∨ ∃ s ∈ ss, kv.2 = f s := by
  induction ss with
  | nil => intro acc kv hkv; exact Or.inl hkv
  | cons s rest ih =>
    intro acc kv hkv
    rcases ih _ kv hkv with h | h
    · rcases mem_dictInsert h with h2 | h2
      · right
        exact ⟨s, List.mem_cons_self _ _, by simp [h2]⟩
      · exact Or.inl h2
    · rcases h with ⟨s2, hs2, he⟩
      exact Or.inr ⟨s2, List.mem_cons_of_mem _ hs2, he⟩

theorem find?_eq_some_of_unique {α : Type} {p : α → Bool} {l : List α} {a : α}
    (ha : a ∈ l) (hpa : p a = true) (huniq : ∀ x ∈ l, p x = true → x = a) :
    l.find? p = some a := by
  induction l with
  | nil => cases ha
  | cons b t ih =>
    by_cases hb : p b = true
    · have hba : b = a := huniq b (List.mem_cons_self _ _) hb
      subst hba
      simp [List.find?_cons, hb]
    · have hb2 : p b = false := by simpa using hb
      have ha2 : a ∈ t := by
        rcases List.mem_cons.mp ha with h | h
        · rw [← h] at hb
          exact absurd hpa hb
        · exact h
      simp only [List.find?_cons, hb2]
      exact ih ha2 (fun x hx hpx => huniq x (List.mem_cons_of_mem _ hx) hpx)

theorem surfaces_id_unique {ss : List Surface} (hnd : (ss.map Surface.id).Nodup) :
    ∀ s1 ∈ ss, ∀ s2 ∈ ss, s1.id = s2.id → s1 = s2 := by
  induction ss with
  | nil => intro s1 h; cases h
  | cons a t ih =>
    simp only [List.map_cons, List.nodup_cons] at hnd
    intro s1 h1 s2 h2 he
    rcases List.mem_cons.mp h1 with ha1 | ha1
    · rcases List.mem_cons.mp h2 with ha2 | ha2
      · rw [ha1, ha2]
      · exfalso
        apply hnd.1
        have hmem : s2.id ∈ t.map Surface.id := List.mem_map_of_mem Surface.id ha2
        rw [ha1] at he
        rw [← he] at hmem
        exact hmem
    · rcases List.mem_cons.mp h2 with ha2 | ha2
      · exfalso
        apply hnd.1
        have hmem : s1.id ∈ t.map Surface.id := List.mem_map_of_mem Surface.id ha1
        rw [ha2] at he
        rw [he] at hmem
        exact hmem
      · exact ih hnd.2 s1 ha1 s2 ha2 he

theorem lookup_fold_insertE (f : Surface → Option String) (ss : List Surface) :
    ∀ (acc : List (String × String)) (k : String),
    dictLookup (ss.foldl (fun m s =>
        match f s with
        | some v => dictInsert m s.id v
        | none => m) acc) k =
      match ss.reverse.find? (fun s => decide (s.id = k) && (f s).isSome) with
      | some s => f s
      | none => dictLookup acc k := by
  induction ss with
  | nil => intro acc k; rfl
  | cons s rest ih =>
    intro acc k
    rw [List.foldl_cons, ih, List.reverse_cons, List.find?_append]
    cases hf : rest.reverse.find? (fun s2 => decide (s2.id = k) && (f s2).isSome) with
    | some s2 => simp [hf]
    | none =>
      simp only [hf, Option.none_orElse]
      by_cases hk : s.id = k
      · cases hfs : f s with
        | some v =>
          subst hk
          simp [List.find?, hfs, dictLookup_insert_self]
        | none =>
          simp [List.find?, hfs, hk]
      · have hk2 : k ≠ s.id := fun he => hk he.symm
        cases hfs : f s with
        | some v => simp [List.find?, hfs, hk, dictLookup_insert_ne _ _ hk2]
        | none => simp [List.find?, hfs, hk]

theorem nodup_keys_fold_insert (f : Surface → String) (ss : List Surface) :
    ∀ acc, (acc.map Prod.fst).Nodup →
      ((ss.foldl (fun m s => dictInsert m s.id (f s)) acc).map Prod.fst).Nodup := by
  induction ss with
  | nil => intro acc h; exact h
  | cons s rest ih => intro acc h; exact ih _ (nodup_keys_dictInsert h)

theorem mem_keys_fold_insert (f : Surface → String) (ss : List Surface) :
    ∀ acc k, (k ∈ (ss.foldl (fun m s => dictInsert m s.id (f s)) acc).map Prod.fst ↔
      k ∈ acc.map Prod.fst ∨ ∃ s ∈ ss, s.id = k) := by
  induction ss with
  | nil => intro acc k; simp
  | cons s rest ih =>
    intro acc k
    rw [List.foldl_cons, ih]
    constructor
    · rintro (h | h)
      · rcases mem_keys_dictInsert.mp h with h2 | h2
        · exact Or.inr ⟨s, List.mem_cons_self _ _, h2.symm⟩
        · exact Or.inl h2
      · rcases h with ⟨s2, hs2, he⟩
        exact Or.inr ⟨s2, List.mem_cons_of_mem _ hs2, he⟩
    · rintro (h | h)
      · exact Or.inl (mem_keys_dictInsert.mpr (Or.inr h))
      · rcases h with ⟨s2, hs2, he⟩
        rcases List.mem_cons.mp hs2 with h3 | h3
        · exact Or.inl (mem_keys_dictInsert.mpr (Or.inl (by rw [← he, h3])))
        · exact Or.inr ⟨s2, h3, he⟩

/-- C1: for every non-empty surface collection with distinct ids and every
wall collection, the mapping returned by `find_matching_partners` has exactly
one entry per input surface id (no duplicates, no omissions), and every
entry's value is either the id of some input wall or the sentinel `"none"`. -/
theorem find_matching_partners_total (contains : Mesh → Vec3 → Bool)
    (vn : Mesh → List Vec3) (d : ℚ) (surfaces : List Surface) (walls : List Wall)
    (_hne : surfaces ≠ []) (hnodup : (surfaces.map Surface.id).Nodup) :
    (findMatchingPartners contains vn d surfaces walls).map Prod.fst =
      surfaces.map Surface.id ∧
    ∀ kv ∈ findMatchingPartners contains vn d surfaces walls,
      kv.2 = "none" ∨ ∃ w ∈ walls, kv.2 = w.id := by
  constructor
  · rw [findMatchingPartners,
      fold_insert_eq_append (fun s2 => processSurface contains vn d s2 walls) surfaces []
        hnodup (fun s _ => by simp)]
    rw [List.nil_append, List.map_map]
    rfl
  · intro kv hkv
    rcases mem_fold_insert (fun s2 => processSurface contains vn d s2 walls) surfaces []
        kv hkv with h | h
    · cases h
    · rcases h with ⟨s, _, he⟩
      rw [he]
      exact processSurface_value contains vn d s walls

/-- Witness for C1 at a concrete input: two surfaces, one wall. -/
theorem find_matching_partners_total_witness :
    (findMatchingPartners containsAlways vnZ 0 [surf1, surf2] [wall1]).map Prod.fst =
      [surf1, surf2].map Surface.id ∧
    ∀ kv ∈ findMatchingPartners containsAlways vnZ 0 [surf1, surf2] [wall1],
      kv.2 = "none" ∨ ∃ w ∈ [wall1], kv.2 = w.id :=
  find_matching_partners_total containsAlways vnZ 0 [surf1, surf2] [wall1]
    (by decide) (by decide)

theorem lookup_findMatchingPartners (contains : Mesh → Vec3 → Bool)
    (vn : Mesh → List Vec3) (d : ℚ) (surfaces : List Surface) (walls : List Wall)
    (s : Surface) (hnodup : (surfaces.map Surface.id).Nodup) (hs : s ∈ surfaces) :
    dictLookup (findMatchingPartners contains vn d surfaces walls) s.id =
      some (processSurface contains vn d s walls) := by
  have hfind : surfaces.reverse.find? (fun s2 => decide (s2.id = s.id)) = some s := by
    apply find?_eq_some_of_unique (List.mem_reverse.mpr hs) (by simp)
    intro x hx hpx
    exact surfaces_id_unique hnodup x (List.mem_reverse.mp hx) s hs (of_decide_eq_true hpx)
  rw [findMatchingPartners,
    lookup_fold_insert (fun s2 => processSurface contains vn d s2 walls) surfaces [] s.id,
    hfind]

/-- C2: for each surface in a run with distinct surface ids, the recorded
entry is the id of the first wall in input order passing both the
tolerance-expanded bounding-box pruning test and the full containment check
(all boundary points and all generated interior samples inside the buffered
wall), and `"none"` when no wall passes both. -/
theorem find_matching_partners_first_fit (contains : Mesh → Vec3 → Bool)
    (vn : Mesh → List Vec3) (d : ℚ) (surfaces : List Surface) (walls : List Wall)
    (s : Surface) (hnodup : (surfaces.map Surface.id).Nodup) (hs : s ∈ surfaces) :
    dictLookup (findMatchingPartners contains vn d surfaces walls) s.id =
      some (match walls.find? (wallCandidate contains vn d s) with
            | some w => w.id
            | none => "none") := by
  rw [lookup_findMatchingPartners contains vn d surfaces walls s hnodup hs,
    processSurface_eq_find]

/-- Witness for C2 at a concrete input. -/
theorem find_matching_partners_first_fit_witness :
    dictLookup (findMatchingPartners containsAlways vnZ 0 [surf1, surf2] [wall1]) surf1.id =
      some (match [wall1].find? (wallCandidate containsAlways vnZ 0 surf1) with
            | some w => w.id
            | none => "none") :=
  find_matching_partners_first_fit containsAlways vnZ 0 [surf1, surf2] [wall1] surf1
    (by decide) (by decide)

/-- C10: when input surfaces share ids, the mapping keeps exactly one entry
per distinct id — the keys are duplicate-free, are exactly the input ids, the
entry count equals the number of distinct ids (possibly smaller than the
number of surfaces), and the value stored for an id is the one computed for
the last input surface carrying that id (the entry written last overwrites
the earlier ones in the sequential model of the thread pool). -/
theorem find_matching_partners_duplicate_ids (contains : Mesh → Vec3 → Bool)
    (vn : Mesh → List Vec3) (d : ℚ) (surfaces : List Surface) (walls : List Wall) :
    ((findMatchingPartners contains vn d surfaces walls).map Prod.fst).Nodup ∧
    (∀ k, k ∈ (findMatchingPartners contains vn d surfaces walls).map Prod.fst ↔
      ∃ s ∈ surfaces, s.id = k) ∧
    (findMatchingPartners contains vn d surfaces walls).length =
      (surfaces.map Surface.id).dedup.length ∧
    ∀ s ∈ surfaces,
      dictLookup (findMatchingPartners contains vn d surfaces walls) s.id =
        (surfaces.reverse.find? (fun s2 => decide (s2.id = s.id))).map
          (fun s2 => processSurface contains vn d s2 walls) := by
  have hnodup : ((findMatchingPartners contains vn d surfaces walls).map Prod.fst).Nodup :=
    nodup_keys_fold_insert (fun s2 => processSurface contains vn d s2 walls) surfaces []
      (by simp)
  have hmem : ∀ k, k ∈ (findMatchingPartners contains vn d surfaces walls).map Prod.fst ↔
      ∃ s ∈ surfaces, s.id = k := by
    intro k
    rw [findMatchingPartners,
      mem_keys_fold_insert (fun s2 => processSurface contains vn d s2 walls) surfaces [] k]
    simp
  refine ⟨hnodup, hmem, ?_, ?_⟩
  · have hperm : ((findMatchingPartners contains vn d surfaces walls).map Prod.fst).Perm
        (surfaces.map Surface.id).dedup := by
      rw [List.perm_ext_iff_of_nodup hnodup (List.nodup_dedup _)]
      intro k
      rw [hmem k, List.mem_dedup, List.mem_map]
    have hlen := hperm.length_eq
    rw [List.length_map] at hlen
    exact hlen
  · intro s _
    rw [findMatchingPartners,
      lookup_fold_insert (fun s2 => processSurface contains vn d s2 walls) surfaces [] s.id]
    cases surfaces.reverse.find? (fun s2 => decide (s2.id = s.id)) with
    | none => rfl
    | some s2 => rfl

/-- Witness for C10 at a concrete input with a duplicated id: two surfaces
share id "S1", the result has a single entry for it, and the result is
shorter than the input list. -/
theorem find_matching_partners_duplicate_ids_witness :
    ((findMatchingPartners containsAlways vnZ 0 [surf1, surf1b] [wall1]).map Prod.fst).Nodup ∧
    (∀ k, k ∈ (findMatchingPartners containsAlways vnZ 0 [surf1, surf1b] [wall1]).map Prod.fst ↔
      ∃ s ∈ [surf1, surf1b], s.id = k) ∧
    (findMatchingPartners containsAlways vnZ 0 [surf1, surf1b] [wall1]).length =
      ([surf1, surf1b].map Surface.id).dedup.length ∧
    ∀ s ∈ [surf1, surf1b],
      dictLookup (findMatchingPartners containsAlways vnZ 0 [surf1, surf1b] [wall1]) s.id =
        ([surf1, surf1b].reverse.find? (fun s2 => decide (s2.id = s.id))).map
          (fun s2 => processSurface containsAlways vnZ 0 s2 [wall1]) :=
  find_matching_partners_duplicate_ids containsAlways vnZ 0 [surf1, surf1b] [wall1]

/-- C6 counterexample: the source raises no EmptyInputError.  With zero walls
it returns a result mapping that sends every surface to `"none"`, and with
zero surfaces it returns the empty mapping — so "fails with a fatal
EmptyInputError and no result mapping is returned" is false on the code. -/
theorem find_matching_partners_empty_counterexample :
    findMatchingPartners containsAlways vnZ 0 [surf1] [] = [("S1", "none")] ∧
    findMatchingPartners containsAlways vnZ 0 [] [wall1] = [] :=
  ⟨rfl, rfl⟩

/-- C6 amended: with zero surfaces `find_matching_partners` returns the empty
mapping, and with zero walls it returns normally with every entry `"none"`;
no error is raised in either case. -/
theorem find_matching_partners_empty_behavior (contains : Mesh → Vec3 → Bool)
    (vn : Mesh → List Vec3) (d : ℚ) (surfaces : List Surface) (walls : List Wall) :
    findMatchingPartners contains vn d [] walls = [] ∧
    ∀ kv ∈ findMatchingPartners contains vn d surfaces [], kv.2 = "none" := by
  refine ⟨rfl, ?_⟩
  intro kv hkv
  rcases mem_fold_insert (fun s2 => processSurface contains vn d s2 []) surfaces []
      kv hkv with h | h
  · cases h
  · rcases h with ⟨s, _, he⟩
    rw [he]
    rfl

/-- Witness for the amended C6 at a concrete input. -/
theorem find_matching_partners_empty_behavior_witness :
    findMatchingPartners containsAlways vnZ 0 [] [wall1] = [] ∧
    ∀ kv ∈ findMatchingPartners containsAlways vnZ 0 [surf1] [], kv.2 = "none" :=
  find_matching_partners_empty_behavior containsAlways vnZ 0 [surf1] [wall1]

/-- C7 counterexample: one surface, a degenerate first wall whose
classification raises, and a second wall that would fully match (its check
returns `some true` and both walls pass pruning).  The source has no
`try/except`, so the exception aborts the surface's task: the result mapping
is empty — the degenerate wall is not skipped, the good wall is never
recorded, and the surface receives no entry, refuting the claimed local
recovery. -/
theorem find_matching_partners_exception_counterexample :
    checkSurfaceWallMatchE classifyE vnZ 0 surf1 wall1 = some true ∧
    prunePasses 0 (surfaceBounds surf1) (meshBounds wallBad.mesh) ∧
    prunePasses 0 (surfaceBounds surf1) (meshBounds wall1.mesh) ∧
    checkSurfaceWallMatchE classifyE vnZ 0 surf1 wallBad = none ∧
    findMatchingPartnersE classifyE vnZ 0 [surf1] [wallBad, wall1] = [] := by
  refine ⟨?_, ?_, ?_, ?_, ?_⟩ <;> with_unfolding_all decide

/-- C7 amended: an exception raised while buffering or classifying a wall
mesh silently kills the current surface's task: no further candidate walls
are evaluated for it and it receives no entry in the result, while every
surface whose task completes still receives its computed entry and the run
returns the remaining mapping. -/
theorem find_matching_partners_exception_behavior (c : Mesh → Vec3 → Option Bool)
    (vn : Mesh → List Vec3) (d : ℚ) (surfaces : List Surface) (walls : List Wall)
    (s : Surface) (hnodup : (surfaces.map Surface.id).Nodup) (hs : s ∈ surfaces)
    (habort : processSurfaceE c vn d s walls = none) :
    dictLookup (findMatchingPartnersE c vn d surfaces walls) s.id = none ∧
    ∀ s2 ∈ surfaces, ∀ v, processSurfaceE c vn d s2 walls = some v →
      dictLookup (findMatchingPartnersE c vn d surfaces walls) s2.id = some v := by
  constructor
  · rw [findMatchingPartnersE,
      lookup_fold_insertE (fun s2 => processSurfaceE c vn d s2 walls) surfaces [] s.id]
    have hnone : surfaces.reverse.find?
        (fun s2 => decide (s2.id = s.id) && (processSurfaceE c vn d s2 walls).isSome) =
          none := by
      rw [List.find?_eq_none]
      intro x hx
      by_cases hxe : x.id = s.id
      · have hxs : x = s := surfaces_id_unique hnodup x (List.mem_reverse.mp hx) s hs hxe
        rw [hxs, habort]
        simp
      · simp [hxe]
    rw [hnone]
    rfl
  · intro s2 hs2 v hv
    rw [findMatchingPartnersE,
      lookup_fold_insertE (fun s3 => processSurfaceE c vn d s3 walls) surfaces [] s2.id]
    have hfind : surfaces.reverse.find?
        (fun s3 => decide (s3.id = s2.id) && (processSurfaceE c vn d s3 walls).isSome) =
          some s2 := by
      apply find?_eq_some_of_unique (List.mem_reverse.mpr hs2) (by simp [hv])
      intro x hx hpx
      simp only [Bool.and_eq_true, decide_eq_true_eq] at hpx
      exact surfaces_id_unique hnodup x (List.mem_reverse.mp hx) s2 hs2 hpx.1
    rw [hfind]
    exact hv

/-- Witness for the amended C7 at a concrete input: the first surface's task
raises on the degenerate wall and gets no entry; the second surface's task
completes with `"none"` and keeps its entry. -/
theorem find_matching_partners_exception_behavior_witness :
    dictLookup (findMatchingPartnersE classifyE vnZ 0 [surf1, surf2] [wallBad, wall1])
      surf1.id = none ∧
    ∀ s2 ∈ [surf1, surf2], ∀ v, processSurfaceE classifyE vnZ 0 s2 [wallBad, wall1] = some v →
      dictLookup (findMatchingPartnersE classifyE vnZ 0 [surf1, surf2] [wallBad, wall1])
        s2.id = some v :=
  find_matching_partners_exception_behavior classifyE vnZ 0 [surf1, surf2] [wallBad, wall1]
    surf1 (by decide) (by decide) (by with_unfolding_all decide)

/-! Buffering lemmas: identity at distance zero, silent erosion at negative
distance. -/

theorem displace_zero (v n : Vec3) : displace 0 v n = v := by
  simp [displace]

theorem zipWith_displace_zero : ∀ (vs ns : List Vec3), vs.length ≤ ns.length →
    List.zipWith (displace 0) vs ns = vs := by
  intro vs
  induction vs with
  | nil => intro ns _; simp
  | cons v vt ih =>
    intro ns hlen
    cases ns with
    | nil => simp at hlen
    | cons n nt =>
      simp only [List.zipWith_cons_cons, displace_zero]
      rw [ih nt (by simpa using hlen)]

/-- C3: buffering with distance 0 is the identity: the buffered mesh has the
same vertex positions and the same faces as the input (given the library
invariant that there is one normal per vertex), so containment classification
of any point against the buffered mesh equals classification against the
unbuffered mesh, whatever the classification primitive is. -/
theorem create_buffered_mesh_zero (vn : Mesh → List Vec3) (m : Mesh)
    (hlen : (vn m).length = m.vertices.length) :
    createBufferedMesh vn m 0 = m ∧
    ∀ (contains : Mesh → Vec3 → Bool) (p : Vec3),
      contains (createBufferedMesh vn m 0) p = contains m p := by
  have heq : createBufferedMesh vn m 0 = m := by
    unfold createBufferedMesh
    cases m with
    | mk verts faces =>
      congr 1
      exact zipWith_displace_zero verts _ (le_of_eq hlen.symm)
  exact ⟨heq, fun contains p => by rw [heq]⟩

/-- Witness for C3 at a concrete mesh. -/
theorem create_buffered_mesh_zero_witness :
    createBufferedMesh vnZ mesh1 0 = mesh1 ∧
    ∀ (contains : Mesh → Vec3 → Bool) (p : Vec3),
      contains (createBufferedMesh vnZ mesh1 0) p = contains mesh1 p :=
  create_buffered_mesh_zero vnZ mesh1 (by rfl)

/-- C5 counterexample: buffering with the negative distance -1 raises
nothing in the source — `create_buffered_mesh` returns an ordinary mesh whose
only vertex has been silently moved inward along its unit normal, so "fails
with an InvalidArgument error before any containment work begins" is false
on the code. -/
theorem create_buffered_mesh_negative_counterexample :
    createBufferedMesh vnX mesh1 (-1) = ⟨[⟨-1, 0, 0⟩], [(0, 0, 0)]⟩ ∧
    (createBufferedMesh vnX mesh1 (-1)).vertices ≠ mesh1.vertices := by
  refine ⟨?_, ?_⟩ <;> with_unfolding_all decide

/-- C5 amended: `create_buffered_mesh` performs no validation of the buffer
distance.  For any negative distance it returns a mesh with the input's faces
whose vertices are displaced by the distance along their normals — a strict
inward move (erosion) at every vertex with a nonzero normal — instead of
raising an InvalidArgument error. -/
theorem create_buffered_mesh_negative (vn : Mesh → List Vec3) (m : Mesh) (d : ℚ)
    (hd : d < 0) :
    (createBufferedMesh vn m d).faces = m.faces ∧
    (createBufferedMesh vn m d).vertices = List.zipWith (displace d) m.vertices (vn m) ∧
    ∀ pr ∈ m.vertices.zip (vn m), pr.2 ≠ (⟨0, 0, 0⟩ : Vec3) →
      displace d pr.1 pr.2 ≠ pr.1 := by
  refine ⟨rfl, rfl, ?_⟩
  intro pr _ hn heq
  apply hn
  have hdne : d ≠ 0 := ne_of_lt hd
  have hx : (displace d pr.1 pr.2).x = pr.1.x := congrArg Vec3.x heq
  have hy : (displace d pr.1 pr.2).y = pr.1.y := congrArg Vec3.y heq
  have hz : (displace d pr.1 pr.2).z = pr.1.z := congrArg Vec3.z heq
  simp only [displace] at hx hy hz
  have hnx : pr.2.x = 0 := by
    have h0 : d * pr.2.x = 0 := by linarith
    rcases mul_eq_zero.mp h0 with h | h
    · exact absurd h hdne
    · exact h
  have hny : pr.2.y = 0 := by
    have h0 : d * pr.2.y = 0 := by linarith
    rcases mul_eq_zero.mp h0 with h | h
    · exact absurd h hdne
    · exact h
  have hnz : pr.2.z = 0 := by
    have h0 : d * pr.2.z = 0 := by linarith
    rcases mul_eq_zero.mp h0 with h | h
    · exact absurd h hdne
    · exact h
  have hpr : pr.2 = (⟨pr.2.x, pr.2.y, pr.2.z⟩ : Vec3) := rfl
  rw [hpr, hnx, hny, hnz]

/-- Witness for the amended C5 at a concrete mesh and distance. -/
theorem create_buffered_mesh_negative_witness :
    (createBufferedMesh vnX mesh1 (-1)).faces = mesh1.faces ∧
    (createBufferedMesh vnX mesh1 (-1)).vertices =
      List.zipWith (displace (-1)) mesh1.vertices (vnX mesh1) ∧
    ∀ pr ∈ mesh1.vertices.zip (vnX mesh1), pr.2 ≠ (⟨0, 0, 0⟩ : Vec3) →
      displace (-1) pr.1 pr.2 ≠ pr.1 :=
  create_buffered_mesh_negative vnX mesh1 (-1) (by norm_num)

/-! Lattice lemmas for the interior point generator. -/

theorem linspace_length (a b : ℚ) (n : Nat) : (linspace a b n).length = n := by
  simp [linspace]

theorem linspace_mem_first {a b : ℚ} {n : Nat} (hn : 0 < n) : a ∈ linspace a b n := by
  refine List.mem_map.mpr ⟨0, List.mem_range.mpr hn, ?_⟩
  push_cast
  ring

theorem linspace_mem_last {a b : ℚ} {n : Nat} (hn : 2 ≤ n) : b ∈ linspace a b n := by
  have h2 : (2 : ℚ) ≤ (n : ℚ) := by exact_mod_cast hn
  have hne : ((n : ℚ) - 1) ≠ 0 := by
    intro h
    rw [sub_eq_zero] at h
    rw [h] at h2
    norm_num at h2
  refine List.mem_map.mpr ⟨n - 1, List.mem_range.mpr (by omega), ?_⟩
  have h1 : 1 ≤ n := by omega
  have hcast : ((n - 1 : Nat) : ℚ) = (n : ℚ) - 1 := by
    push_cast [h1]
    ring
  rw [hcast, mul_div_cancel₀ (b - a) hne]
  ring

theorem linspace_getD (a b : ℚ) (n i : Nat) (hi : i < n) :
    (linspace a b n).getD i 0 = a + (i : ℚ) * ((b - a) / ((n : ℚ) - 1)) := by
  unfold linspace
  rw [List.getD_eq_getElem?_getD, List.getElem?_map, List.getElem?_range hi]
  rfl

theorem linspace_spacing (a b : ℚ) (n i : Nat) (hi : i + 1 < n) :
    (linspace a b n).getD (i + 1) 0 - (linspace a b n).getD i 0 =
      (b - a) / ((n : ℚ) - 1) := by
  rw [linspace_getD a b n (i + 1) hi, linspace_getD a b n i (by omega)]
  push_cast
  ring

theorem length_flatMap_const {α β : Type} (l : List α) (f : α → List β) (k : Nat)
    (h : ∀ a ∈ l, (f a).length = k) : (l.flatMap f).length = l.length * k := by
  induction l with
  | nil => simp
  | cons a t ih =>
    rw [List.flatMap_cons, List.length_append, h a (List.mem_cons_self _ _),
      ih (fun a2 ha2 => h a2 (List.mem_cons_of_mem _ ha2)), List.length_cons,
      Nat.succ_mul]
    omega

/-- C8: for every surface and every resolution `n ≥ 2`, interior sampling
returns exactly `n ^ 3` points forming the regular lattice of the three
`linspace` axes over the surface's axis-aligned bounding box; the box minimum
and maximum are attained on each axis (inclusive span), consecutive samples
on each axis are an equal step apart, and the default resolution 5 yields
125 points.  The generator is a pure function of the surface's points and the
resolution. -/
theorem generate_interior_points_lattice (s : Surface) (n : Nat) (hn : 2 ≤ n) :
    (generateInteriorPoints s n).length = n ^ 3 ∧
    (generateInteriorPoints s 5).length = 125 ∧
    (∀ p ∈ generateInteriorPoints s n,
      p.x ∈ xLattice s n ∧ p.y ∈ yLattice s n ∧ p.z ∈ zLattice s n) ∧
    (∀ a ∈ xLattice s n, ∀ b ∈ yLattice s n, ∀ c ∈ zLattice s n,
      (⟨a, b, c⟩ : Vec3) ∈ generateInteriorPoints s n) ∧
    ((boundsOf s.points).lo.x ∈ xLattice s n ∧ (boundsOf s.points).hi.x ∈ xLattice s n ∧
     (boundsOf s.points).lo.y ∈ yLattice s n ∧ (boundsOf s.points).hi.y ∈ yLattice s n ∧
     (boundsOf s.points).lo.z ∈ zLattice s n ∧ (boundsOf s.points).hi.z ∈ zLattice s n) ∧
    (∀ i, i + 1 < n →
      (xLattice s n).getD (i + 1) 0 - (xLattice s n).getD i 0 =
        ((boundsOf s.points).hi.x - (boundsOf s.points).lo.x) / ((n : ℚ) - 1) ∧
      (yLattice s n).getD (i + 1) 0 - (yLattice s n).getD i 0 =
        ((boundsOf s.points).hi.y - (boundsOf s.points).lo.y) / ((n : ℚ) - 1) ∧
      (zLattice s n).getD (i + 1) 0 - (zLattice s n).getD i 0 =
        ((boundsOf s.points).hi.z - (boundsOf s.points).lo.z) / ((n : ℚ) - 1)) := by
  have hgen : ∀ k, generateInteriorPoints s k =
      (yLattice s k).flatMap fun b => (xLattice s k).flatMap fun a =>
        (zLattice s k).map fun c => ⟨a, b, c⟩ := fun _ => rfl
  have hlen : ∀ k, (generateInteriorPoints s k).length = k ^ 3 := by
    intro k
    have hinner : ∀ b : ℚ, ((xLattice s k).flatMap fun a =>
        (zLattice s k).map fun c => (⟨a, b, c⟩ : Vec3)).length = k * k := by
      intro b
      rw [length_flatMap_const (xLattice s k) _ k (fun a _ => by
        rw [List.length_map, zLattice, linspace_length]), xLattice, linspace_length]
    rw [hgen k, length_flatMap_const (yLattice s k) _ (k * k) (fun b _ => hinner b),
      yLattice, linspace_length]
    ring
  refine ⟨hlen n, by rw [hlen 5]; norm_num, ?_, ?_, ?_, ?_⟩
  · intro p hp
    rw [hgen n] at hp
    simp only [List.mem_flatMap, List.mem_map] at hp
    rcases hp with ⟨b, hb, a, ha, c, hc, he⟩
    rw [← he]
    exact ⟨ha, hb, hc⟩
  · intro a ha b hb c hc
    rw [hgen n]
    simp only [List.mem_flatMap, List.mem_map]
    exact ⟨b, hb, a, ha, c, hc, rfl⟩
  · have h0 : 0 < n := by omega
    exact ⟨linspace_mem_first h0, linspace_mem_last hn, linspace_mem_first h0,
      linspace_mem_last hn, linspace_mem_first h0, linspace_mem_last hn⟩
  · intro i hi
    exact ⟨linspace_spacing _ _ n i hi, linspace_spacing _ _ n i hi,
      linspace_spacing _ _ n i hi⟩

/-- Witness for C8 at a concrete surface and resolution. -/
theorem generate_interior_points_lattice_witness :
    (generateInteriorPoints surf3 5).length = 5 ^ 3 ∧
    (generateInteriorPoints surf3 5).length = 125 ∧
    (∀ p ∈ generateInteriorPoints surf3 5,
      p.x ∈ xLattice surf3 5 ∧ p.y ∈ yLattice surf3 5 ∧ p.z ∈ zLattice surf3 5) ∧
    (∀ a ∈ xLattice surf3 5, ∀ b ∈ yLattice surf3 5, ∀ c ∈ zLattice surf3 5,
      (⟨a, b, c⟩ : Vec3) ∈ generateInteriorPoints surf3 5) ∧
    ((boundsOf surf3.points).lo.x ∈ xLattice surf3 5 ∧
     (boundsOf surf3.points).hi.x ∈ xLattice surf3 5 ∧
     (boundsOf surf3.points).lo.y ∈ yLattice surf3 5 ∧
     (boundsOf surf3.points).hi.y ∈ yLattice surf3 5 ∧
     (boundsOf surf3.points).lo.z ∈ zLattice surf3 5 ∧
     (boundsOf surf3.points).hi.z ∈ zLattice surf3 5) ∧
    (∀ i, i + 1 < 5 →
      (xLattice surf3 5).getD (i + 1) 0 - (xLattice surf3 5).getD i 0 =
        ((boundsOf surf3.points).hi.x - (boundsOf surf3.points).lo.x) / ((5 : ℚ) - 1) ∧
      (yLattice surf3 5).getD (i + 1) 0 - (yLattice surf3 5).getD i 0 =
        ((boundsOf surf3.points).hi.y - (boundsOf surf3.points).lo.y) / ((5 : ℚ) - 1) ∧
      (zLattice surf3 5).getD (i + 1) 0 - (zLattice surf3 5).getD i 0 =
        ((boundsOf surf3.points).hi.z - (boundsOf surf3.points).lo.z) / ((5 : ℚ) - 1)) :=
  generate_interior_points_lattice surf3 5 (by decide)

/-! Monotonicity of the matcher in the buffer distance. -/

theorem prunePasses_mono {d d2 : ℚ} (h : d ≤ d2) {sb wb : Bounds}
    (hp : prunePasses d sb wb) : prunePasses d2 sb wb := by
  obtain ⟨⟨h1, h2, h3⟩, h4, h5, h6⟩ := hp
  exact ⟨⟨by linarith, by linarith, by linarith⟩, by linarith, by linarith, by linarith⟩

theorem checkSurfaceWallMatch_mono (contains : Mesh → Vec3 → Bool)
    (vn : Mesh → List Vec3) {d d2 : ℚ} (s : Surface) (w : Wall)
    (hgrow : ∀ p, contains (createBufferedMesh vn w.mesh d) p = true →
      contains (createBufferedMesh vn w.mesh d2) p = true)
    (hc : checkSurfaceWallMatch contains vn d s w = true) :
    checkSurfaceWallMatch contains vn d2 s w = true := by
  simp only [checkSurfaceWallMatch] at hc ⊢
  by_cases hv : (s.points.all fun p => contains (createBufferedMesh vn w.mesh d) p) = true
  · rw [if_pos hv] at hc
    have hv2 : (s.points.all fun p => contains (createBufferedMesh vn w.mesh d2) p) = true := by
      rw [List.all_eq_true] at hv ⊢
      exact fun p hp => hgrow p (hv p hp)
    rw [if_pos hv2, List.all_eq_true]
    rw [List.all_eq_true] at hc
    exact fun p hp => hgrow p (hc p hp)
  · rw [if_neg hv] at hc
    cases hc

/-- C4: matching is monotone in the buffer distance under the spec's
outward-offset model of the external containment primitive (section 4.1:
buffering "expands a solid mesh outward", so a point classified inside the
mesh buffered at `d` stays inside at any larger distance — hypothesis
`hgrow`): if a surface is matched to some wall `w` when run at distance
`d ≥ 0`, then at any `d2 > d` it is matched to some wall `w2` (not
necessarily the same one) and `find_matching_partners` records `w2.id` for
it. -/
theorem find_matching_partners_monotone (contains : Mesh → Vec3 → Bool)
    (vn : Mesh → List Vec3) (d d2 : ℚ) (_hd : 0 ≤ d) (hlt : d < d2)
    (hgrow : ∀ (m : Mesh) (p : Vec3), contains (createBufferedMesh vn m d) p = true →
      contains (createBufferedMesh vn m d2) p = true)
    (surfaces : List Surface) (walls : List Wall) (s : Surface) (w : Wall)
    (hnodup : (surfaces.map Surface.id).Nodup) (hs : s ∈ surfaces)
    (hmatch : walls.find? (wallCandidate contains vn d s) = some w) :
    ∃ w2, walls.find? (wallCandidate contains vn d2 s) = some w2 ∧
      dictLookup (findMatchingPartners contains vn d2 surfaces walls) s.id =
        some w2.id := by
  have hw : w ∈ walls := List.mem_of_find?_eq_some hmatch
  have hcand : wallCandidate contains vn d s w = true := List.find?_some hmatch
  rw [wallCandidate, Bool.and_eq_true, decide_eq_true_eq] at hcand
  have hcand2 : wallCandidate contains vn d2 s w = true := by
    rw [wallCandidate, Bool.and_eq_true, decide_eq_true_eq]
    exact ⟨prunePasses_mono (le_of_lt hlt) hcand.1,
      checkSurfaceWallMatch_mono contains vn s w (hgrow w.mesh) hcand.2⟩
  have hsome : (walls.find? (wallCandidate contains vn d2 s)).isSome := by
    rw [List.find?_isSome]
    exact ⟨w, hw, hcand2⟩
  obtain ⟨w2, hw2⟩ := Option.isSome_iff_exists.mp hsome
  refine ⟨w2, hw2, ?_⟩
  rw [lookup_findMatchingPartners contains vn d2 surfaces walls s hnodup hs,
    processSurface_eq_find, hw2]

/-- Witness for C4 at a concrete input: distances 0 and 1. -/
theorem find_matching_partners_monotone_witness :
    ∃ w2, [wall1].find? (wallCandidate containsAlways vnZ 1 surf1) = some w2 ∧
      dictLookup (findMatchingPartners containsAlways vnZ 1 [surf1] [wall1]) surf1.id =
        some w2.id :=
  find_matching_partners_monotone containsAlways vnZ 0 1 (by norm_num) (by norm_num)
    (fun m p h => h) [surf1] [wall1] surf1 wall1 (by decide) (by decide)
    (by with_unfolding_all decide)

/-! Soundness of the bounding-box pruning filter. -/

theorem checkSurfaceWallMatch_boundary {contains : Mesh → Vec3 → Bool}
    {vn : Mesh → List Vec3} {d : ℚ} {s : Surface} {w : Wall}
    (hc : checkSurfaceWallMatch contains vn d s w = true) :
    ∀ p ∈ s.points, contains (createBufferedMesh vn w.mesh d) p = true := by
  simp only [checkSurfaceWallMatch] at hc
  by_cases hv : (s.points.all fun p => contains (createBufferedMesh vn w.mesh d) p) = true
  · rw [List.all_eq_true] at hv
    exact hv
  · rw [if_neg hv] at hc
    cases hc

theorem buffered_axis_bounds (f : Vec3 → ℚ) (verts ns : List Vec3) {d : ℚ} (hd : 0 ≤ d)
    (hproj : ∀ v nv : Vec3, f (displace d v nv) = f v + d * f nv)
    (hunit1 : ∀ nv ∈ ns, -1 ≤ f nv ∧ f nv ≤ 1) :
    ∀ bv ∈ List.zipWith (displace d) verts ns,
      listMin (verts.map f) - d ≤ f bv ∧ f bv ≤ listMax (verts.map f) + d := by
  intro bv hbv
  obtain ⟨v, hv, nv, hnv, he⟩ := zipWith_mem hbv
  rw [he, hproj]
  have h1 := listMin_le_of_mem (List.mem_map_of_mem f hv)
  have h2 := le_listMax_of_mem (List.mem_map_of_mem f hv)
  have h3 := hunit1 nv hnv
  constructor <;> nlinarith [h3.1, h3.2]

theorem buffered_bounds_axis (f : Vec3 → ℚ) (verts ns : List Vec3) (d : ℚ) (hd : 0 ≤ d)
    (hne : List.zipWith (displace d) verts ns ≠ [])
    (hproj : ∀ v nv : Vec3, f (displace d v nv) = f v + d * f nv)
    (hunit1 : ∀ nv ∈ ns, -1 ≤ f nv ∧ f nv ≤ 1) :
    listMin (verts.map f) - d ≤ listMin ((List.zipWith (displace d) verts ns).map f) ∧
    listMax ((List.zipWith (displace d) verts ns).map f) ≤ listMax (verts.map f) + d := by
  have hmem := buffered_axis_bounds f verts ns hd hproj hunit1
  constructor
  · apply le_listMin (fun h => hne (List.map_eq_nil_iff.mp h))
    intro q hq
    obtain ⟨bv, hbv, he⟩ := List.mem_map.mp hq
    rw [← he]
    exact (hmem bv hbv).1
  · apply listMax_le (fun h => hne (List.map_eq_nil_iff.mp h))
    intro q hq
    obtain ⟨bv, hbv, he⟩ := List.mem_map.mp hq
    rw [← he]
    exact (hmem bv hbv).2

/-- C9: pruning has no false negatives.  For every surface/wall pair and
buffer distance `d ≥ 0`, if the exact check succeeds (every boundary point
and every interior sample classifies inside the wall buffered at `d`), then
the bounding-box pruning test at tolerance `d` also reports possible overlap.
External-library facts appear as hypotheses: one normal per vertex (`hlen`),
normals of at most unit length (`hunit`), and the point-in-closed-solid
property that an inside point lies within the solid's vertex bounding box
(`hsolid`). -/
theorem pruning_soundness (contains : Mesh → Vec3 → Bool) (vn : Mesh → List Vec3)
    (d : ℚ) (s : Surface) (w : Wall) (hd : 0 ≤ d)
    (hsp : s.points ≠ []) (hwv : w.mesh.vertices ≠ [])
    (hlen : (vn w.mesh).length = w.mesh.vertices.length)
    (hunit : ∀ nv ∈ vn w.mesh, nv.x ^ 2 + nv.y ^ 2 + nv.z ^ 2 ≤ 1)
    (hsolid : ∀ p : Vec3, contains (createBufferedMesh vn w.mesh d) p = true →
      withinBounds p (meshBounds (createBufferedMesh vn w.mesh d)))
    (hmatch : checkSurfaceWallMatch contains vn d s w = true) :
    prunePasses d (surfaceBounds s) (meshBounds w.mesh) := by
  have p0mem : s.points.head hsp ∈ s.points := List.head_mem hsp
  have hin : contains (createBufferedMesh vn w.mesh d) (s.points.head hsp) = true :=
    checkSurfaceWallMatch_boundary hmatch _ p0mem
  have hwb := hsolid _ hin
  have hux : ∀ nv ∈ vn w.mesh, -1 ≤ nv.x ∧ nv.x ≤ 1 := by
    intro nv hnv
    have h := hunit nv hnv
    constructor <;>
      nlinarith [sq_nonneg nv.y, sq_nonneg nv.z, sq_nonneg (nv.x + 1), sq_nonneg (nv.x - 1)]
  have huy : ∀ nv ∈ vn w.mesh, -1 ≤ nv.y ∧ nv.y ≤ 1 := by
    intro nv hnv
    have h := hunit nv hnv
    constructor <;>
      nlinarith [sq_nonneg nv.x, sq_nonneg nv.z, sq_nonneg (nv.y + 1), sq_nonneg (nv.y - 1)]
  have huz : ∀ nv ∈ vn w.mesh, -1 ≤ nv.z ∧ nv.z ≤ 1 := by
    intro nv hnv
    have h := hunit nv hnv
    constructor <;>
      nlinarith [sq_nonneg nv.x, sq_nonneg nv.y, sq_nonneg (nv.z + 1), sq_nonneg (nv.z - 1)]
  have hvlen : w.mesh.vertices.length ≠ 0 := fun h0 => hwv (List.length_eq_zero.mp h0)
  have hbm_ne : List.zipWith (displace d) w.mesh.vertices (vn w.mesh) ≠ [] := by
    intro h
    have h2 := congrArg List.length h
    rw [List.length_zipWith, hlen, min_self, List.length_nil] at h2
    exact hvlen h2
  have hbx := buffered_bounds_axis Vec3.x w.mesh.vertices (vn w.mesh) d hd hbm_ne
    (fun v nv => rfl) hux
  have hby := buffered_bounds_axis Vec3.y w.mesh.vertices (vn w.mesh) d hd hbm_ne
    (fun v nv => rfl) huy
  have hbz := buffered_bounds_axis Vec3.z w.mesh.vertices (vn w.mesh) d hd hbm_ne
    (fun v nv => rfl) huz
  have hsx1 : listMin (s.points.map Vec3.x) ≤ (s.points.head hsp).x :=
    listMin_le_of_mem (List.mem_map_of_mem _ p0mem)
  have hsx2 : (s.points.head hsp).x ≤ listMax (s.points.map Vec3.x) :=
    le_listMax_of_mem (List.mem_map_of_mem _ p0mem)
  have hsy1 : listMin (s.points.map Vec3.y) ≤ (s.points.head hsp).y :=
    listMin_le_of_mem (List.mem_map_of_mem _ p0mem)
  have hsy2 : (s.points.head hsp).y ≤ listMax (s.points.map Vec3.y) :=
    le_listMax_of_mem (List.mem_map_of_mem _ p0mem)
  have hsz1 : listMin (s.points.map Vec3.z) ≤ (s.points.head hsp).z :=
    listMin_le_of_mem (List.mem_map_of_mem _ p0mem)
  have hsz2 : (s.points.head hsp).z ≤ listMax (s.points.map Vec3.z) :=
    le_listMax_of_mem (List.mem_map_of_mem _ p0mem)
  simp only [withinBounds, meshBounds, boundsOf, createBufferedMesh] at hwb
  obtain ⟨hw1, hw2, hw3, hw4, hw5, hw6⟩ := hwb
  simp only [prunePasses, surfaceBounds, meshBounds, boundsOf, ge_iff_le]
  refine ⟨⟨?_, ?_, ?_⟩, ?_, ?_, ?_⟩ <;>
    linarith [hbx.1, hbx.2, hby.1, hby.2, hbz.1, hbz.2]

/-- Witness for C9 at a concrete input, instantiating the containment
primitive with the bounding-box solid test. -/
theorem pruning_soundness_witness :
    prunePasses 0 (surfaceBounds surf1) (meshBounds wall1.mesh) :=
  pruning_soundness containsBox vnZ 0 surf1 wall1 (by norm_num) (by decide) (by decide)
    (by rfl) (by with_unfolding_all decide)
    (fun p h => of_decide_eq_true h)
    (by with_unfolding_all decide)
